import Mathlib

/-!
# Verification of `SpeechFingerprinting.py`

Shallow embedding of the two fingerprinting pipelines of
`src/SpeechFingerprinting.py` (band-energy fingerprinting and
landmark fingerprinting), together with theorems settling the
specification claims about them.

Matrices are embedded as index functions `ℕ → ℕ → α` with explicit row
and column counts (numpy arrays are rectangular); waveforms as `List ℝ`.
Machine floats are modelled as real numbers; the float literals `0.5`,
`2.5`, `1.3`, `0.1`, `1e-5`, `1e-8` are modelled by the corresponding
rationals/reals.
-/

namespace SpeechFP

/-- Python indexing into a row of length `n`: a negative index `z` wraps
around to `n + z` (e.g. `row[-1]` is the last entry). -/
def pyIdx (n : ℕ) (z : ℤ) : ℕ :=
  if z < 0 then (n + z).toNat else z.toNat

/-- Python `int()` applied to a real value: truncation toward zero. -/
noncomputable def pyInt (x : ℝ) : ℤ :=
  if 0 ≤ x then ⌊x⌋ else ⌈x⌉

/-- The bit-derivation step of `extractFBEFingerprinting`
(`SpeechFingerprinting.py` lines 74-81):

    fp = np.zeros((len(frames), n_bands - 1))
    for i in range(1, len(filter_banks)):
        for j in range(len(filter_banks[0]) - 1):
            if energy[i][j] - energy[i][j+1] - (energy[i-1][j] - energy[i-1][j-1]) > 0:
                fp[i][j] = 1
            else:
                fp[i][j] = 0

`energy` (= `filter_banks`) has `n_frames` rows and `n_bands` columns, so
the outer loop runs over `1 ≤ i < n_frames` and the inner loop over
`j < n_bands - 1`; all other entries of `fp` keep their initial value `0`.
At `j = 0` the access `energy[i-1][j-1]` is Python's `energy[i-1][-1]`,
i.e. the LAST column of the previous row (`pyIdx`). -/
def bitDerive {α : Type} [LinearOrderedField α]
    (n_frames n_bands : ℕ) (energy : ℕ → ℕ → α) : ℕ → ℕ → ℕ := fun i j =>
  if 1 ≤ i ∧ i < n_frames ∧ j < n_bands - 1 then
    if energy i j - energy i (j+1) -
        (energy (i-1) j - energy (i-1) (pyIdx n_bands ((j : ℤ) - 1))) > 0
    then 1 else 0
  else 0

/-- A concrete 2×3 mean-normalized-energy matrix used to exhibit a set bit
in the last column of the derived fingerprint. -/
def energyExLast : ℕ → ℕ → ℚ := fun i j =>
  (([[0, 0, 0], [0, 9, 0]] : List (List ℚ)).getD i []).getD j 0

/-- A concrete 2×3 mean-normalized-energy matrix used to exhibit a set bit
in column 0 of the derived fingerprint (via negative-index wraparound). -/
def energyExWrap : ℕ → ℕ → ℚ := fun i j =>
  (([[0, 0, 9], [0, 0, 0]] : List (List ℚ)).getD i []).getD j 0

/-- C1 (counterexample): with `n_bands = 3` the spec's band range
`[0, n_bands − 2)` is `{0}` only, and the claim says no other column of a
row `i ≥ 1` is set; but on a concrete energy matrix the code sets the bit
in column `1 = n_bands − 2` of row 1. -/
theorem C1_last_column_is_set :
    bitDerive 2 3 energyExLast 1 1 = 1 := by
  simp [bitDerive, energyExLast, pyIdx]

/-- C1 (amended): for frame index `1 ≤ i < n_frames` and band index
`1 ≤ j < n_bands − 1` (all columns except `j = 0`, whose neighbor access
wraps around), the derived bit is `1` exactly when
`(E[i][j] − E[i][j+1]) − (E[i−1][j] − E[i−1][j−1]) > 0`, else `0`. -/
theorem C1_bit_formula {α : Type} [LinearOrderedField α]
    (n_frames n_bands : ℕ) (E : ℕ → ℕ → α) (i j : ℕ)
    (hi1 : 1 ≤ i) (hi2 : i < n_frames) (hj1 : 1 ≤ j) (hj2 : j < n_bands - 1) :
    bitDerive n_frames n_bands E i j =
      if E i j - E i (j+1) - (E (i-1) j - E (i-1) (j-1)) > 0 then 1 else 0 := by
  have hidx : pyIdx n_bands ((j : ℤ) - 1) = j - 1 := by
    unfold pyIdx
    have : ¬ ((j : ℤ) - 1 < 0) := by omega
    rw [if_neg this]
    omega
  unfold bitDerive
  rw [if_pos ⟨hi1, hi2, hj2⟩, hidx]

/-- C1 (witness): the amended bit formula evaluated at a concrete energy
matrix, frame 1, band 1. -/
theorem C1_bit_formula_witness :
    bitDerive 2 3 energyExLast 1 1 =
      if energyExLast 1 1 - energyExLast 1 2 -
          (energyExLast 0 1 - energyExLast 0 0) > 0 then 1 else 0 :=
  C1_bit_formula 2 3 energyExLast 1 1 (by decide) (by decide) (by decide) (by decide)

/-- C2 (counterexample): column `j = 0` of the fingerprint is not always
zero: on a concrete energy matrix the wraparound access
`energy[i-1][-1]` makes the code set `fp[1][0] = 1`. -/
theorem C2_column0_is_set :
    bitDerive 2 3 energyExWrap 1 0 = 1 := by
  simp [bitDerive, energyExWrap, pyIdx]

/-- C2 (amended): row 0 (frame 0) of the band-energy fingerprint is all
zeros, for every energy matrix and every dimension (the bit-derivation
loop starts at frame 1); the column `j = 0`, by contrast, is computed by
the wraparound rule and is not left at zero. -/
theorem C2_row0_all_zero {α : Type} [LinearOrderedField α]
    (n_frames n_bands : ℕ) (E : ℕ → ℕ → α) (j : ℕ) :
    bitDerive n_frames n_bands E 0 j = 0 := by
  unfold bitDerive
  rw [if_neg]
  intro h
  exact absurd h.1 (by omega)

/-- C10: for every frame `1 ≤ i < n_frames` (with at least two bands), the
bit in column `j = 0` is computed with Python negative-index wraparound:
it is `1` exactly when
`(E[i][0] − E[i][1]) − (E[i−1][0] − E[i−1][n_bands−1]) > 0`, the missing
`j−1` neighbor being the last band of the previous frame. -/
theorem C10_wraparound {α : Type} [LinearOrderedField α]
    (n_frames n_bands : ℕ) (E : ℕ → ℕ → α) (i : ℕ)
    (hi1 : 1 ≤ i) (hi2 : i < n_frames) (hb : 2 ≤ n_bands) :
    bitDerive n_frames n_bands E i 0 =
      if E i 0 - E i 1 - (E (i-1) 0 - E (i-1) (n_bands - 1)) > 0 then 1 else 0 := by
  have hidx : pyIdx n_bands (((0 : ℕ) : ℤ) - 1) = n_bands - 1 := by
    unfold pyIdx
    rw [if_pos (by omega)]
    omega
  unfold bitDerive
  rw [if_pos ⟨hi1, hi2, by omega⟩, hidx]

/-- C10 (witness): the wraparound formula evaluated at a concrete energy
matrix, frame 1, column 0. -/
theorem C10_wraparound_witness :
    bitDerive 2 3 energyExWrap 1 0 =
      if energyExWrap 1 0 - energyExWrap 1 1 -
          (energyExWrap 0 0 - energyExWrap 0 2) > 0 then 1 else 0 :=
  C10_wraparound 2 3 energyExWrap 1 (by decide) (by decide) (by decide)

/-! ## Filterbank construction (lines 42-66) -/

/-- Bark conversion, line 42: `6. * np.arcsinh(low_freq / 600.)`. -/
noncomputable def bark (f : ℝ) : ℝ := 6 * Real.arsinh (f / 600)

/-- Line 43: `high_freq = min(6. * np.arcsinh(high_freq / 600.), sr / 2)`.
The Bark-converted value of `high_freq` is compared against the Nyquist
frequency `sr / 2`, which is expressed in Hz. -/
noncomputable def highBark (high_freq sr : ℝ) : ℝ := min (bark high_freq) (sr / 2)

/-- The weight the filterbank loop (lines 55-66) assigns to bin `k` of a
band with center bin `center`; `delta = center - k` is an integer, the
float literals `1.3`, `0.5`, `2.5` of the comparisons are modelled by the
exact rationals (equivalent on integer `delta`), `10 ** e` is real
exponentiation:

    delta = center - k
    if delta < -1.3:                 0
    elif -1.3 <= delta <= -0.5:      10 ** (2.5 * (k + 0.5))
    elif -0.5 <= delta <= 0.5:       1
    elif 0.5 <= delta <= 2.5:        10 ** (-0.1 * (k - 0.5))
    else:                            0
-/
noncomputable def fbankWeight (center k : ℤ) : ℝ :=
  if ((center - k : ℤ) : ℚ) < -13/10 then 0
  else if -13/10 ≤ ((center - k : ℤ) : ℚ) ∧ ((center - k : ℤ) : ℚ) ≤ -1/2 then
    (10 : ℝ) ^ ((5/2 : ℝ) * ((k : ℝ) + 1/2))
  else if -1/2 ≤ ((center - k : ℤ) : ℚ) ∧ ((center - k : ℤ) : ℚ) ≤ 1/2 then 1
  else if 1/2 ≤ ((center - k : ℤ) : ℚ) ∧ ((center - k : ℤ) : ℚ) ≤ 5/2 then
    (10 : ℝ) ^ ((-1/10 : ℝ) * ((k : ℝ) - 1/2))
  else 0

/-- One entry of the filterbank matrix row for a band with boundary bins
`low`, `center`, `high`: the loop `for k in range(low, high)` writes
`fbankWeight center k`, and all bins outside `[low, high)` keep the
initial value `0` from `np.zeros` (line 49). -/
noncomputable def fbankEntry (low center high k : ℤ) : ℝ :=
  if low ≤ k ∧ k < high then fbankWeight center k else 0

/-- C6: for a band with boundary bins `low`, `center`, `high`, every bin
`k ∈ [low, high)` gets the weight given by the five-region rule on
`delta = center − k` (`0` below `−1.3`; `10^(2.5·(k+0.5))` on
`[−1.3, −0.5]`; `1` on `[−0.5, 0.5]`; `10^(−0.1·(k−0.5))` on
`[0.5, 2.5]`; `0` above), and every bin outside `[low, high)` has
weight `0`. -/
theorem C6_five_region_rule (low center high k : ℤ) :
    (low ≤ k → k < high →
      ((((center - k : ℤ) : ℚ) < -13/10 → fbankEntry low center high k = 0) ∧
       (-13/10 ≤ ((center - k : ℤ) : ℚ) → ((center - k : ℤ) : ℚ) ≤ -1/2 →
         fbankEntry low center high k = (10 : ℝ) ^ ((5/2 : ℝ) * ((k : ℝ) + 1/2))) ∧
       (-1/2 ≤ ((center - k : ℤ) : ℚ) → ((center - k : ℤ) : ℚ) ≤ 1/2 →
         fbankEntry low center high k = 1) ∧
       (1/2 ≤ ((center - k : ℤ) : ℚ) → ((center - k : ℤ) : ℚ) ≤ 5/2 →
         fbankEntry low center high k = (10 : ℝ) ^ ((-1/10 : ℝ) * ((k : ℝ) - 1/2))) ∧
       (5/2 < ((center - k : ℤ) : ℚ) → fbankEntry low center high k = 0))) ∧
    (¬ (low ≤ k ∧ k < high) → fbankEntry low center high k = 0) := by
  constructor
  · intro h1 h2
    have hin : fbankEntry low center high k = fbankWeight center k := by
      unfold fbankEntry
      rw [if_pos ⟨h1, h2⟩]
    refine ⟨?_, ?_, ?_, ?_, ?_⟩
    · intro hd
      rw [hin]
      unfold fbankWeight
      rw [if_pos hd]
    · intro hd1 hd2
      have hdelta : center - k = -1 := by
        have ha : (center - k) * 10 ≤ -5 := by
          exact_mod_cast (by linarith : ((center - k : ℤ) : ℚ) * 10 ≤ -5)
        have hb : (-13 : ℤ) ≤ (center - k) * 10 := by
          exact_mod_cast (by linarith : (-13 : ℚ) ≤ ((center - k : ℤ) : ℚ) * 10)
        omega
      rw [hin]
      unfold fbankWeight
      rw [hdelta]
      norm_num
    · intro hd1 hd2
      have hdelta : center - k = 0 := by
        have ha : (center - k) * 10 ≤ 5 := by
          exact_mod_cast (by linarith : ((center - k : ℤ) : ℚ) * 10 ≤ 5)
        have hb : (-5 : ℤ) ≤ (center - k) * 10 := by
          exact_mod_cast (by linarith : (-5 : ℚ) ≤ ((center - k : ℤ) : ℚ) * 10)
        omega
      rw [hin]
      unfold fbankWeight
      rw [hdelta]
      norm_num
    · intro hd1 hd2
      have hdelta : center - k = 1 ∨ center - k = 2 := by
        have ha : (center - k) * 10 ≤ 25 := by
          exact_mod_cast (by linarith : ((center - k : ℤ) : ℚ) * 10 ≤ 25)
        have hb : (5 : ℤ) ≤ (center - k) * 10 := by
          exact_mod_cast (by linarith : (5 : ℚ) ≤ ((center - k : ℤ) : ℚ) * 10)
        omega
      rw [hin]
      unfold fbankWeight
      rcases hdelta with h | h <;> rw [h] <;> norm_num
    · intro hd
      have hdelta : 3 ≤ center - k := by
        have hb : (25 : ℤ) < (center - k) * 10 := by
          exact_mod_cast (by linarith : (25 : ℚ) < ((center - k : ℤ) : ℚ) * 10)
        omega
      have hq : (3 : ℚ) ≤ ((center - k : ℤ) : ℚ) := by exact_mod_cast hdelta
      rw [hin]
      unfold fbankWeight
      rw [if_neg (by linarith), if_neg ?hc2, if_neg ?hc3, if_neg ?hc4]
      case hc2 =>
        rintro ⟨_, hx⟩
        linarith
      case hc3 =>
        rintro ⟨_, hx⟩
        linarith
      case hc4 =>
        rintro ⟨_, hx⟩
        linarith
  · intro h
    unfold fbankEntry
    rw [if_neg h]

/-- C6 (witness): the five-region rule applied at `low = 0`, `center = 3`,
`high = 6`, `k = 2` (so `delta = 1`, fourth region). -/
theorem C6_five_region_rule_witness :
    fbankEntry 0 3 6 2 = (10 : ℝ) ^ ((-1/10 : ℝ) * (((2 : ℤ) : ℝ) - 1/2)) :=
  ((C6_five_region_rule 0 3 6 2).1 (by decide) (by decide)).2.2.2.1
    (by norm_num) (by norm_num)

/-- C5 (code divergence): at `sample_rate = 1000`, `high_freq = 2000` the
upper Bark bound computed by line 43, `min(bark(2000), 500)`, equals
`bark(2000)` — the Nyquist clipping never takes effect because a Bark
value is compared against a frequency in Hz — whereas the specified bound
`bark(min(high_freq, sample_rate/2)) = bark(500)` is strictly smaller. -/
theorem C5_nyquist_clip_mismatch :
    bark (min 2000 ((1000 : ℝ) / 2)) < highBark 2000 1000 := by
  have hmono : ∀ x y : ℝ, x < y → bark x < bark y := by
    intro x y hxy
    unfold bark
    have h : Real.arsinh (x / 600) < Real.arsinh (y / 600) := by
      rw [Real.arsinh_lt_arsinh]
      linarith
    linarith
  have h1 : bark 2000 < 500 := by
    unfold bark
    have h2 : Real.arsinh (2000 / 600) < 250 / 3 := by
      have h3 : (2000 : ℝ) / 600 < Real.sinh (250 / 3) := by
        have h4 := Real.self_lt_sinh_iff.mpr (by norm_num : (0:ℝ) < 250/3)
        linarith
      calc Real.arsinh (2000 / 600) < Real.arsinh (Real.sinh (250/3)) := by
            rw [Real.arsinh_lt_arsinh]
            exact h3
        _ = 250 / 3 := Real.arsinh_sinh _
    linarith
  have h5 : highBark 2000 1000 = bark 2000 := by
    unfold highBark
    exact min_eq_left (by linarith : bark 2000 ≤ (1000:ℝ)/2)
  have h6 : min (2000 : ℝ) ((1000:ℝ)/2) = 500 := by
    rw [min_eq_right (by norm_num : (1000:ℝ)/2 ≤ 2000)]
    norm_num
  rw [h5, h6]
  exact hmono 500 2000 (by norm_num)

/-! ## The band-energy pipeline (`extractFBEFingerprinting`, lines 12-91) -/

/-- Modelled from the spec: `normalization` from `utils/basic_functions`
(repository code that is not under `src/`): amplitude-scale the waveform
to a canonical range, here by its maximum absolute value (spec §6).
Length-preserving. -/
noncomputable def normalization (samples : List ℝ) : List ℝ :=
  samples.map fun x => x / (samples.map (fun y => |y|)).foldr max 0

/-- Modelled from the spec: `preEmphasis` from `utils/basic_functions`
(repository code that is not under `src/`): a first-order high-pass
pre-emphasis filter, here `y[n] = x[n] − 0.97·x[n−1]` with `y[0] = x[0]`
(spec §6). Length-preserving. -/
noncomputable def preEmphasis (samples : List ℝ) (sr : ℝ) : List ℝ :=
  (List.range samples.length).map fun n =>
    samples.getD n 0 - (if n = 0 then 0 else (97/100 : ℝ) * samples.getD (n-1) 0)

/-- Modelled from the spec: the number of complete frames produced by the
framing collaborator (`librosa.util.frame`, an external library): frames
of `frame_length` samples, each advanced by `hop` samples, the last
partial frame dropped; a waveform shorter than one frame yields zero
frames (spec §4.1). -/
def numFrames (n frame_length hop : ℕ) : ℕ :=
  if n < frame_length then 0 else (n - frame_length) / hop + 1

/-- Entry `frames[t][n]` of the frame matrix (line 36, after `.T`). -/
noncomputable def frameAt (s : List ℝ) (hop : ℕ) : ℕ → ℕ → ℝ := fun t n =>
  s.getD (t * hop + n) 0

/-- Model of `np.fft.fft(frames, fft_points)` (line 37): each frame of length `L`
zero-padded (or truncated) to `N = fft_points` points, then the DFT
`X[k] = Σ_{n<N} x[n]·exp(−2πi·k·n/N)`. -/
noncomputable def spectrumAt (s : List ℝ) (L hop N : ℕ) : ℕ → ℕ → ℂ := fun t k =>
  ∑ n ∈ Finset.range N,
    (((if n < L then frameAt s hop t n else 0) : ℝ) : ℂ) *
      Complex.exp (-2 * (Real.pi : ℂ) * Complex.I * (k : ℂ) * (n : ℂ) / (N : ℂ))

/-- Lines 38-39: `power = np.abs(spectrum)[:, 0:N//2+1] ** 2 / N`. -/
noncomputable def powerAt (s : List ℝ) (L hop N : ℕ) : ℕ → ℕ → ℝ := fun t k =>
  Complex.abs (spectrumAt s L hop N t k) ^ 2 / (N : ℝ)

/-- Line 44: point `i` of `np.linspace(bark low_freq, highBark, n_bands + 2)`
(equally spaced, step `(b − a)/(n_bands + 1)`). -/
noncomputable def barkPoint (low_freq high_freq sr : ℝ) (n_bands : ℕ) (i : ℕ) : ℝ :=
  bark low_freq + (i : ℝ) * (highBark high_freq sr - bark low_freq) / ((n_bands : ℝ) + 1)

/-- Lines 45-47: convert the Bark points back to Hz
(`600·sinh(b/6)`) and map them to FFT bin indices
(`(N//2 + 1)·hz/sr`). -/
noncomputable def binPoint (low_freq high_freq sr : ℝ) (n_bands N : ℕ) (i : ℕ) : ℝ :=
  ((N / 2 + 1 : ℕ) : ℝ) * (600 * Real.sinh (barkPoint low_freq high_freq sr n_bands i / 6)) / sr

/-- Lines 52-54: the integer boundary bin `int(bin[i])`. -/
noncomputable def binIdx (low_freq high_freq sr : ℝ) (n_bands N : ℕ) (i : ℕ) : ℤ :=
  pyInt (binPoint low_freq high_freq sr n_bands N i)

/-- Whether the filterbank loop for the 0-based band `m` (the source's
band `m+1`, lines 51-66) attempts a write `fbank[m, k]` outside the valid
numpy index range `[-(N//2+1), N//2+1)` of the `(n_bands, N//2+1)` array
`fbank` (line 49): such a write raises IndexError and the call returns no
matrix. The loop writes at every `k ∈ [int(bin[m]), int(bin[m+2]))`. -/
def fbankOOB (low_freq high_freq sr : ℝ) (n_bands N : ℕ) (m : ℕ) : Prop :=
  ∃ k : ℤ, binIdx low_freq high_freq sr n_bands N m ≤ k ∧
    k < binIdx low_freq high_freq sr n_bands N (m + 2) ∧
    (((N / 2 + 1 : ℕ) : ℤ) ≤ k ∨ k < -((N / 2 + 1 : ℕ) : ℤ))

/-- Lines 49-66: the final value of column `c` of the 0-based row `m` of
`fbank` after the loop, in the case where no write raises IndexError:
`np.zeros` starts the row at 0; the loop `for k in range(low, high)`
writes `fbankWeight center k` at column `k` when `0 ≤ k` and — numpy
negative indexing — at column `k + (N//2+1)` when `-(N//2+1) ≤ k < 0`;
the loop ascends, so where a wrapped and a direct write both land the
direct (later) write is the one that remains. -/
noncomputable def fbankAt (low_freq high_freq sr : ℝ) (n_bands N : ℕ) : ℕ → ℕ → ℝ := fun m c =>
  if binIdx low_freq high_freq sr n_bands N m ≤ (c : ℤ) ∧
      (c : ℤ) < binIdx low_freq high_freq sr n_bands N (m + 2) then
    fbankEntry (binIdx low_freq high_freq sr n_bands N m)
      (binIdx low_freq high_freq sr n_bands N (m + 1))
      (binIdx low_freq high_freq sr n_bands N (m + 2)) (c : ℤ)
  else
    fbankEntry (binIdx low_freq high_freq sr n_bands N m)
      (binIdx low_freq high_freq sr n_bands N (m + 1))
      (binIdx low_freq high_freq sr n_bands N (m + 2))
      ((c : ℤ) - ((N / 2 + 1 : ℕ) : ℤ))

/-- Line 68: `filter_banks = np.dot(power, fbank.T)`. -/
noncomputable def filterBanksAt (s : List ℝ) (L hop N : ℕ)
    (low_freq high_freq sr : ℝ) (n_bands : ℕ) : ℕ → ℕ → ℝ := fun t m =>
  ∑ k ∈ Finset.range (N / 2 + 1),
    powerAt s L hop N t k * fbankAt low_freq high_freq sr n_bands N m k

/-- Line 69: `np.where(filter_banks == 0, np.finfo(float).eps, filter_banks)`
with `eps = 2⁻⁵²`. -/
noncomputable def epsSubst (x : ℝ) : ℝ := if x = 0 then (2 : ℝ) ^ (-52 : ℤ) else x

/-- Line 70: `20 * np.log10(filter_banks).clip(1e-5, np.inf)` — the clip
applies to the `log10` values (it is a method call on `np.log10(...)`),
and the clipped result is then scaled by 20. -/
noncomputable def dbClip (x : ℝ) : ℝ := 20 * max (1/100000) (Real.logb 10 x)

/-- The log filterbank energies after lines 69-70. -/
noncomputable def dbAt (s : List ℝ) (L hop N : ℕ)
    (low_freq high_freq sr : ℝ) (n_bands : ℕ) : ℕ → ℕ → ℝ := fun t m =>
  dbClip (epsSubst (filterBanksAt s L hop N low_freq high_freq sr n_bands t m))

/-- Line 71: `filter_banks -= (np.mean(filter_banks, axis=0) + 1e-8)` —
subtract the per-band across-time mean plus `1e-8` (`nf` frames). -/
noncomputable def energyAt (s : List ℝ) (L hop N : ℕ)
    (low_freq high_freq sr : ℝ) (n_bands nf : ℕ) : ℕ → ℕ → ℝ := fun t m =>
  dbAt s L hop N low_freq high_freq sr n_bands t m -
    ((∑ u ∈ Finset.range nf, dbAt s L hop N low_freq high_freq sr n_bands u m) / (nf : ℝ)
      + 1/100000000)

open Classical in
/-- Function `extractFBEFingerprinting` (lines 12-91; the `display` branch only
plots and never affects the returned matrix). The result is the row
count, the column count and the fingerprint matrix. The framing
collaborator is modelled from the spec: `hop = (1 − overlapping) ·
window_length` must be a positive integer, otherwise the call fails with
`InvalidConfiguration` and no matrix is returned (spec §4.1, §7). The
filterbank loop (lines 51-66) runs regardless of the waveform: if any
band's bin range makes it write outside the `(n_bands, fft_points//2+1)`
array `fbank` — reachable at spec-valid configurations with `high_freq`
above Nyquist, because the line-43 clip is inoperative — the call raises
IndexError and returns no matrix. -/
noncomputable def extractFBEFingerprinting (samples : List ℝ) (sr : ℝ)
    (normalize : Bool) (fft_points n_bands : ℕ) (low_freq high_freq : ℝ)
    (overlapping : ℚ) (window_length : ℕ) (window_type : String) :
    Except String (ℕ × ℕ × (ℕ → ℕ → ℕ)) :=
  let s1 := if normalize then normalization samples else samples
  let s2 := preEmphasis s1 sr
  let hop : ℚ := (1 - overlapping) * (window_length : ℚ)
  if 0 < hop ∧ hop.den = 1 then
    if ∃ m, m < n_bands ∧ fbankOOB low_freq high_freq sr n_bands fft_points m then
      Except.error "IndexError"
    else
      let hopN := hop.num.toNat
      let nf := numFrames s2.length window_length hopN
      Except.ok (nf, n_bands - 1,
        bitDerive nf n_bands
          (energyAt s2 window_length hopN fft_points low_freq high_freq sr n_bands nf))
  else Except.error "InvalidConfiguration"

theorem normalization_length (samples : List ℝ) :
    (normalization samples).length = samples.length := by
  simp [normalization]

theorem preEmphasis_length (samples : List ℝ) (sr : ℝ) :
    (preEmphasis samples sr).length = samples.length := by
  simp [preEmphasis]

theorem bitDerive_mem01 {α : Type} [LinearOrderedField α]
    (nf nb : ℕ) (E : ℕ → ℕ → α) (i j : ℕ) :
    bitDerive nf nb E i j = 0 ∨ bitDerive nf nb E i j = 1 := by
  unfold bitDerive
  split
  · split
    · exact Or.inr rfl
    · exact Or.inl rfl
  · exact Or.inl rfl

theorem bitDerive_outside {α : Type} [LinearOrderedField α]
    (nf nb : ℕ) (E : ℕ → ℕ → α) (i j : ℕ)
    (h : nf ≤ i ∨ nb - 1 ≤ j) : bitDerive nf nb E i j = 0 := by
  unfold bitDerive
  rw [if_neg]
  rintro ⟨h1, h2, h3⟩
  omega

/-- C9: the `window_type` argument has no effect on the band-energy
fingerprint — it is accepted by `extractFBEFingerprinting` but never used
in its body, so any two values yield identical results. -/
theorem C9_window_type_inert (samples : List ℝ) (sr : ℝ) (normalize : Bool)
    (fft_points n_bands : ℕ) (low_freq high_freq : ℝ) (overlapping : ℚ)
    (window_length : ℕ) (wt1 wt2 : String) :
    extractFBEFingerprinting samples sr normalize fft_points n_bands low_freq
        high_freq overlapping window_length wt1 =
      extractFBEFingerprinting samples sr normalize fft_points n_bands low_freq
        high_freq overlapping window_length wt2 := rfl

/-- C7: a configuration whose `hop = (1 − overlapping) · window_length` is
not a positive integer (in particular `hop ≤ 0`) makes
`extractFBEFingerprinting` fail with `InvalidConfiguration`; no
fingerprint matrix is returned. -/
theorem C7_invalid_hop (samples : List ℝ) (sr : ℝ) (normalize : Bool)
    (fft_points n_bands : ℕ) (low_freq high_freq : ℝ) (overlapping : ℚ)
    (window_length : ℕ) (window_type : String)
    (h : ¬ (0 < (1 - overlapping) * (window_length : ℚ) ∧
            ((1 - overlapping) * (window_length : ℚ)).den = 1)) :
    extractFBEFingerprinting samples sr normalize fft_points n_bands low_freq
        high_freq overlapping window_length window_type =
      Except.error "InvalidConfiguration" := by
  simp only [extractFBEFingerprinting]
  rw [if_neg h]

/-- C7 (witness): `overlapping = 1` gives `hop = 0`, which is rejected. -/
theorem C7_invalid_hop_witness :
    extractFBEFingerprinting [] 8000 false 512 33 300 2000 1 240 "Rectangle" =
      Except.error "InvalidConfiguration" :=
  C7_invalid_hop [] 8000 false 512 33 300 2000 1 240 "Rectangle"
    (by intro h; exact absurd h.1 (by norm_num))

/-- Monotonicity of the Bark conversion. -/
theorem bark_lt_bark {x y : ℝ} (hxy : x < y) : bark x < bark y := by
  unfold bark
  have h : Real.arsinh (x / 600) < Real.arsinh (y / 600) := by
    rw [Real.arsinh_lt_arsinh]
    linarith
  linarith

/-- The Bark value of 2000 Hz is far below 500, so at `sr = 1000` the
line-43 `min` keeps the unclipped Bark bound. -/
theorem bark_2000_lt_500 : bark (2000 : ℝ) < 500 := by
  unfold bark
  have h2 : Real.arsinh (2000 / 600) < 250 / 3 := by
    have h3 : (2000 : ℝ) / 600 < Real.sinh (250 / 3) := by
      have h4 := Real.self_lt_sinh_iff.mpr (by norm_num : (0:ℝ) < 250/3)
      linarith
    calc Real.arsinh (2000 / 600) < Real.arsinh (Real.sinh (250/3)) := by
          rw [Real.arsinh_lt_arsinh]
          exact h3
      _ = 250 / 3 := Real.arsinh_sinh _
  linarith

theorem highBark_2000_1000 : highBark 2000 1000 = bark 2000 := by
  unfold highBark
  exact min_eq_left (le_of_lt (lt_of_lt_of_le bark_2000_lt_500 (by norm_num)))

/-- The top `linspace` point equals the upper Bark bound exactly. -/
theorem barkPoint_top : barkPoint 300 2000 1000 33 34 = highBark 2000 1000 := by
  unfold barkPoint
  push_cast
  ring

/-- The top boundary bin at `sr = 1000`, `high_freq = 2000`,
`fft_points = 512`: the Bark-to-Hz round trip gives back 2000 Hz, so
`bin[34] = 257 · 2000 / 1000 = 514`. -/
theorem binPoint_top : binPoint 300 2000 1000 33 512 34 = 514 := by
  unfold binPoint
  rw [barkPoint_top, highBark_2000_1000]
  unfold bark
  rw [show (6:ℝ) * Real.arsinh (2000/600) / 6 = Real.arsinh (2000/600) by ring,
      Real.sinh_arsinh]
  norm_num

theorem binIdx_top : binIdx 300 2000 1000 33 512 34 = 514 := by
  unfold binIdx
  rw [binPoint_top]
  unfold pyInt
  rw [if_pos (by norm_num : (0:ℝ) ≤ 514)]
  norm_num

/-- Truncation toward zero respects strict positive integer upper bounds. -/
theorem pyInt_lt_of_lt {x : ℝ} {n : ℤ} (hn : 0 < n) (hx : x < (n : ℝ)) :
    pyInt x < n := by
  unfold pyInt
  split
  · exact Int.floor_lt.mpr hx
  next h =>
    push_neg at h
    have h0 : ⌈x⌉ ≤ (0 : ℤ) := Int.ceil_le.mpr (by exact_mod_cast le_of_lt h)
    omega

theorem binIdx_32_lt : binIdx 300 2000 1000 33 512 32 < 514 := by
  have hlo : bark 300 < bark 2000 := bark_lt_bark (by norm_num)
  have hd : 0 < highBark 2000 1000 - bark 300 := by
    rw [highBark_2000_1000]
    linarith
  have hbp : barkPoint 300 2000 1000 33 32 < barkPoint 300 2000 1000 33 34 := by
    unfold barkPoint
    push_cast
    linarith
  have hsinh : Real.sinh (barkPoint 300 2000 1000 33 32 / 6) <
      Real.sinh (barkPoint 300 2000 1000 33 34 / 6) := by
    rw [Real.sinh_lt_sinh]
    linarith
  have htop : 600 * Real.sinh (barkPoint 300 2000 1000 33 34 / 6) = 2000 := by
    rw [barkPoint_top, highBark_2000_1000]
    unfold bark
    rw [show (6:ℝ) * Real.arsinh (2000/600) / 6 = Real.arsinh (2000/600) by ring,
        Real.sinh_arsinh]
    norm_num
  have hlt : binPoint 300 2000 1000 33 512 32 < 514 := by
    unfold binPoint
    rw [show ((512 / 2 + 1 : ℕ) : ℝ) = 257 by norm_num]
    linarith
  unfold binIdx
  exact pyInt_lt_of_lt (by norm_num) (by exact_mod_cast hlt)

/-- At `sr = 1000`, `high_freq = 2000` (`fft_points = 512`,
`n_bands = 33`) the filterbank loop goes out of bounds: the 0-based band
32 has `high = int(bin[34]) = 514`, so the loop reaches column indices
`≥ 257` of the 257-column `fbank` array. -/
theorem fbankOOB_sr1000_hf2000 :
    ∃ m, m < 33 ∧ fbankOOB 300 2000 1000 33 512 m := by
  refine ⟨32, by norm_num, ?_⟩
  unfold fbankOOB
  rw [show (32 + 2 : ℕ) = 34 by norm_num, binIdx_top]
  refine ⟨max (binIdx 300 2000 1000 33 512 32) 257, le_max_left _ _, ?_, Or.inl ?_⟩
  · exact max_lt binIdx_32_lt (by norm_num)
  · rw [show ((512 / 2 + 1 : ℕ) : ℤ) = 257 by norm_num]
    exact le_max_right _ _

/-- C8 (code bug): even for a waveform shorter than `window_length`
(2 samples, `window_length = 240`, so zero frames), the filterbank loop
of lines 51-66 still runs, and at the spec-valid configuration
`sr = 1000`, `high_freq = 2000` its inoperative Nyquist clip (see C5)
makes it write past column 256 of `fbank`: the call raises IndexError
instead of returning the claimed zero-row fingerprint without an
exception. -/
theorem C8_indexerror_short_input :
    extractFBEFingerprinting [0, 0] 1000 false 512 33 300 2000 0 240 "Rectangle" =
      Except.error "IndexError" := by
  have h1 : 0 < (1 - (0:ℚ)) * ((240:ℕ) : ℚ) ∧
      ((1 - (0:ℚ)) * ((240:ℕ) : ℚ)).den = 1 := by norm_num
  simp only [extractFBEFingerprinting]
  rw [if_pos h1, if_pos fbankOOB_sr1000_hf2000]

/-- C3 (code bug): at the spec-valid configuration `sr = 1000`,
`high_freq = 2000`, `fft_points = 512`, `n_bands = 33`,
`window_length = 2`, `overlap = 0` (valid per spec §7: positive hop and
window, `n_bands ≥ 1`, `high_freq > low_freq`,
`fft_points ≥ window_length`), the inoperative Nyquist clip of line 43
(see C5) drives the top filterbank boundary bin to
`int(257·2000/1000) = 514`, the loop of lines 51-66 writes past column
256 of the `(n_bands, 257)` array, and the call raises IndexError: no
matrix of shape `(n_frames, n_bands − 1)` is returned. -/
theorem C3_indexerror_at_valid_config :
    extractFBEFingerprinting [0, 0, 0] 1000 false 512 33 300 2000 0 2 "Rectangle" =
      Except.error "IndexError" := by
  have h1 : 0 < (1 - (0:ℚ)) * ((2:ℕ) : ℚ) ∧
      ((1 - (0:ℚ)) * ((2:ℕ) : ℚ)).den = 1 := by norm_num
  simp only [extractFBEFingerprinting]
  rw [if_pos h1, if_pos fbankOOB_sr1000_hf2000]

/-! ## The landmark pipeline (`extractLandmarksFingerprinting`, lines 94-137)

The short-time Fourier transform of line 115 (`librosa.stft`) is an
external collaborator; the landmark extractor is embedded at the level of
its output, the magnitude spectrogram `A` of shape `F × T`
(`F = len(spectogram)` rows, `T = len(spectogram[0])` columns). -/

/-- The index list of `range(0, n, s)` — the tile start indices iterated
by the loops of lines 121-122. -/
def stepStarts (n s : ℕ) : List ℕ := (List.range ((n + s - 1) / s)).map (· * s)

/-- Model of `np.argmax` on a (flattened) array: the index of the maximum value,
with the first occurrence returned on ties; `0` for the empty array. -/
def argmaxIdx {α : Type} [LinearOrder α] : List α → ℕ
  | [] => 0
  | x :: xs => if xs.getD (argmaxIdx xs) x ≤ x then 0 else argmaxIdx xs + 1

/-- Number of rows of the clipped tile `spectogram[a:a+h, b:b+w]`. -/
def tileH (F h a : ℕ) : ℕ := min h (F - a)

/-- Number of columns of the clipped tile `spectogram[a:a+h, b:b+w]`. -/
def tileW (T w b : ℕ) : ℕ := min w (T - b)

/-- The sub-matrix `spectogram[a:a+h, b:b+w]` (line 123) flattened in
row-major order — the order in which `np.argmax` scans it. -/
def tileFlat {α : Type} (A : ℕ → ℕ → α) (F T h w a b : ℕ) : List α :=
  (List.range (tileH F h a * tileW T w b)).map fun p =>
    A (a + p / tileW T w b) (b + p % tileW T w b)

/-- Lines 124-126: `pos = np.unravel_index(np.argmax(sub_matrix),
sub_matrix.shape)`, then `x = i + pos[0]`, `y = j + pos[1]`. -/
def landmarkPos {α : Type} [LinearOrder α]
    (A : ℕ → ℕ → α) (F T h w a b : ℕ) : ℕ × ℕ :=
  (a + argmaxIdx (tileFlat A F T h w a b) / tileW T w b,
   b + argmaxIdx (tileFlat A F T h w a b) % tileW T w b)

/-- The tile start pairs `(i, j)` visited by the nested loops of
lines 121-122. -/
def tilePairs (F T h w : ℕ) : List (ℕ × ℕ) :=
  (stepStarts F h).flatMap fun a => (stepStarts T w).map fun b => (a, b)

/-- Function `extractLandmarksFingerprinting` (lines 94-137) at the level of the
magnitude spectrogram: `fp = np.zeros(spectogram.shape)` and then
`fp[x][y] = 1` for the per-tile argmax position of every tile. -/
def extractLandmarksFingerprinting {α : Type} [LinearOrder α]
    (A : ℕ → ℕ → α) (F T h w : ℕ) : ℕ → ℕ → ℕ :=
  (tilePairs F T h w).foldl
    (fun fp ab => fun u v =>
      if (u, v) = landmarkPos A F T h w ab.1 ab.2 then 1 else fp u v)
    (fun _ _ => 0)

theorem argmaxIdx_lt_length {α : Type} [LinearOrder α]
    (l : List α) (hl : l ≠ []) : argmaxIdx l < l.length := by
  induction l with
  | nil => exact absurd rfl hl
  | cons x xs ih =>
    unfold argmaxIdx
    split
    · simp
    next hgt =>
      have hxs : xs ≠ [] := by
        intro he
        rw [he] at hgt
        exact hgt (le_refl x)
      have := ih hxs
      simp only [List.length_cons]
      omega

theorem getD_le_argmaxIdx {α : Type} [LinearOrder α]
    (l : List α) (d : α) (k : ℕ) (hk : k < l.length) :
    l.getD k d ≤ l.getD (argmaxIdx l) d := by
  induction l generalizing k with
  | nil => simp at hk
  | cons x xs ih =>
    unfold argmaxIdx
    split
    next hle =>
      rw [List.getD_cons_zero]
      cases k with
      | zero => exact le_refl _
      | succ m =>
        have hm : m < xs.length := by
          simp only [List.length_cons] at hk
          omega
        have hxs : xs ≠ [] := by
          intro he
          rw [he] at hm
          simp at hm
        have hj : argmaxIdx xs < xs.length := argmaxIdx_lt_length xs hxs
        have hdef : xs.getD (argmaxIdx xs) x = xs.getD (argmaxIdx xs) d := by
          rw [List.getD_eq_getElem xs x hj, List.getD_eq_getElem xs d hj]
        rw [List.getD_cons_succ]
        exact le_trans (ih m hm) (hdef ▸ hle)
    next hgt =>
      push_neg at hgt
      have hxs : xs ≠ [] := by
        intro he
        rw [he] at hgt
        simp [List.getD] at hgt
      have hj : argmaxIdx xs < xs.length := argmaxIdx_lt_length xs hxs
      have hdef : xs.getD (argmaxIdx xs) x = xs.getD (argmaxIdx xs) d := by
        rw [List.getD_eq_getElem xs x hj, List.getD_eq_getElem xs d hj]
      rw [List.getD_cons_succ]
      cases k with
      | zero =>
        rw [List.getD_cons_zero]
        exact le_of_lt (lt_of_lt_of_eq hgt hdef)
      | succ m =>
        have hm : m < xs.length := by
          simp only [List.length_cons] at hk
          omega
        rw [List.getD_cons_succ]
        exact ih m hm

theorem getD_lt_argmaxIdx_of_lt {α : Type} [LinearOrder α]
    (l : List α) (d : α) (k : ℕ) (hk : k < argmaxIdx l) :
    l.getD k d < l.getD (argmaxIdx l) d := by
  induction l generalizing k with
  | nil => simp [argmaxIdx] at hk
  | cons x xs ih =>
    unfold argmaxIdx at hk ⊢
    split at hk
    next hle => omega
    next hgt =>
      push_neg at hgt
      have hxs : xs ≠ [] := by
        intro he
        rw [he] at hgt
        simp [List.getD] at hgt
      have hj : argmaxIdx xs < xs.length := argmaxIdx_lt_length xs hxs
      have hdef : xs.getD (argmaxIdx xs) x = xs.getD (argmaxIdx xs) d := by
        rw [List.getD_eq_getElem xs x hj, List.getD_eq_getElem xs d hj]
      rw [if_neg (not_le.mpr hgt), List.getD_cons_succ]
      cases k with
      | zero =>
        rw [List.getD_cons_zero]
        exact lt_of_lt_of_eq hgt hdef
      | succ m =>
        rw [List.getD_cons_succ]
        exact ih m (by omega)

theorem lt_ceilDiv_iff {i n s : ℕ} (hs : 0 < s) :
    i < (n + s - 1) / s ↔ i * s < n := by
  rw [Nat.lt_iff_add_one_le, Nat.le_div_iff_mul_le hs, add_one_mul]
  omega

theorem mem_stepStarts {n s : ℕ} (hs : 0 < s) (a : ℕ) :
    a ∈ stepStarts n s ↔ s ∣ a ∧ a < n := by
  unfold stepStarts
  simp only [List.mem_map, List.mem_range]
  constructor
  · rintro ⟨i, hi, rfl⟩
    exact ⟨dvd_mul_left s i, (lt_ceilDiv_iff hs).mp hi⟩
  · rintro ⟨⟨c, rfl⟩, hlt⟩
    exact ⟨c, (lt_ceilDiv_iff hs).mpr (by rw [mul_comm]; exact hlt), mul_comm c s⟩

theorem tileFlat_length {α : Type} (A : ℕ → ℕ → α) (F T h w a b : ℕ) :
    (tileFlat A F T h w a b).length = tileH F h a * tileW T w b := by
  simp [tileFlat]

theorem tileFlat_getD {α : Type} (A : ℕ → ℕ → α) (F T h w a b p : ℕ) (d : α)
    (hp : p < tileH F h a * tileW T w b) :
    (tileFlat A F T h w a b).getD p d =
      A (a + p / tileW T w b) (b + p % tileW T w b) := by
  unfold tileFlat
  rw [List.getD_eq_getElem _ d (by simpa using hp)]
  simp

/-- The row-major flattened index of an in-tile offset pair recovers the
offsets by division and remainder. -/
theorem unflatten_flatten {sh sw r c : ℕ} (hr : r < sh) (hc : c < sw) :
    (r * sw + c) / sw = r ∧ (r * sw + c) % sw = c ∧ r * sw + c < sh * sw := by
  have hsw : 0 < sw := by omega
  refine ⟨?_, ?_, ?_⟩
  · rw [add_comm, Nat.add_mul_div_right c r hsw, Nat.div_eq_of_lt hc]
    omega
  · rw [add_comm, Nat.add_mul_mod_self_right, Nat.mod_eq_of_lt hc]
  · calc r * sw + c < r * sw + sw := by omega
      _ = (r + 1) * sw := by ring
      _ ≤ sh * sw := Nat.mul_le_mul_right sw (by omega)

/-- The argmax bookkeeping for one (possibly clipped) tile: the chosen
position lies inside the tile, every in-tile value is at most the value
there, and everything strictly earlier in row-major order is strictly
smaller. -/
theorem landmarkPos_spec {α : Type} [LinearOrder α]
    (A : ℕ → ℕ → α) (F T h w a b : ℕ)
    (hh : 0 < h) (hw : 0 < w) (ha : a < F) (hb : b < T) :
    (a ≤ (landmarkPos A F T h w a b).1 ∧
     (landmarkPos A F T h w a b).1 < a + tileH F h a ∧
     b ≤ (landmarkPos A F T h w a b).2 ∧
     (landmarkPos A F T h w a b).2 < b + tileW T w b) ∧
    (∀ u v, a ≤ u → u < a + tileH F h a → b ≤ v → v < b + tileW T w b →
      A u v ≤ A (landmarkPos A F T h w a b).1 (landmarkPos A F T h w a b).2) ∧
    (∀ u v, a ≤ u → u < a + tileH F h a → b ≤ v → v < b + tileW T w b →
      (u < (landmarkPos A F T h w a b).1 ∨
        (u = (landmarkPos A F T h w a b).1 ∧ v < (landmarkPos A F T h w a b).2)) →
      A u v < A (landmarkPos A F T h w a b).1 (landmarkPos A F T h w a b).2) := by
  have hsh : 0 < tileH F h a := by unfold tileH; omega
  have hsw : 0 < tileW T w b := by unfold tileW; omega
  have hprodpos : 0 < tileH F h a * tileW T w b := Nat.mul_pos hsh hsw
  have hne : tileFlat A F T h w a b ≠ [] := by
    intro he
    have hlen := tileFlat_length A F T h w a b
    rw [he] at hlen
    simp only [List.length_nil] at hlen
    omega
  have hp : argmaxIdx (tileFlat A F T h w a b) < tileH F h a * tileW T w b := by
    rw [← tileFlat_length A F T h w a b]
    exact argmaxIdx_lt_length _ hne
  set p := argmaxIdx (tileFlat A F T h w a b) with hpdef
  have hdiv : p / tileW T w b < tileH F h a := (Nat.div_lt_iff_lt_mul hsw).mpr hp
  have hmod : p % tileW T w b < tileW T w b := Nat.mod_lt _ hsw
  have hpos1 : (landmarkPos A F T h w a b).1 = a + p / tileW T w b := rfl
  have hpos2 : (landmarkPos A F T h w a b).2 = b + p % tileW T w b := rfl
  have hAval : A (landmarkPos A F T h w a b).1 (landmarkPos A F T h w a b).2 =
      (tileFlat A F T h w a b).getD p (A a b) := by
    rw [hpos1, hpos2, tileFlat_getD A F T h w a b p (A a b) hp]
  refine ⟨⟨?_, ?_, ?_, ?_⟩, ?_, ?_⟩
  · rw [hpos1]
    exact Nat.le_add_right _ _
  · rw [hpos1]
    exact Nat.add_lt_add_left hdiv a
  · rw [hpos2]
    exact Nat.le_add_right _ _
  · rw [hpos2]
    exact Nat.add_lt_add_left hmod b
  · intro u v hu1 hu2 hv1 hv2
    obtain ⟨hq1, hq2, hq3⟩ :=
      @unflatten_flatten (tileH F h a) (tileW T w b) (u - a) (v - b)
        (by omega) (by omega)
    have hAq : (tileFlat A F T h w a b).getD ((u - a) * tileW T w b + (v - b)) (A a b)
        = A u v := by
      rw [tileFlat_getD A F T h w a b _ (A a b) hq3, hq1, hq2]
      congr 1 <;> omega
    rw [hAval, ← hAq]
    exact getD_le_argmaxIdx _ (A a b) _ (by rw [tileFlat_length]; exact hq3)
  · intro u v hu1 hu2 hv1 hv2 hlt
    obtain ⟨hq1, hq2, hq3⟩ :=
      @unflatten_flatten (tileH F h a) (tileW T w b) (u - a) (v - b)
        (by omega) (by omega)
    have hAq : (tileFlat A F T h w a b).getD ((u - a) * tileW T w b + (v - b)) (A a b)
        = A u v := by
      rw [tileFlat_getD A F T h w a b _ (A a b) hq3, hq1, hq2]
      congr 1 <;> omega
    have hqlt : (u - a) * tileW T w b + (v - b) < p := by
      rcases hlt with hcase | ⟨hceq, hclt⟩
      · have hr : u - a + 1 ≤ p / tileW T w b := by
          rw [hpos1] at hcase
          omega
        calc (u - a) * tileW T w b + (v - b)
            < (u - a) * tileW T w b + tileW T w b := by omega
          _ = (u - a + 1) * tileW T w b := by ring
          _ ≤ p / tileW T w b * tileW T w b :=
              Nat.mul_le_mul_right _ hr
          _ ≤ p := Nat.div_mul_le_self p _
      · have hr : u - a = p / tileW T w b := by
          rw [hpos1] at hceq
          omega
        have hc : v - b < p % tileW T w b := by
          rw [hpos2] at hclt
          omega
        calc (u - a) * tileW T w b + (v - b)
            < p / tileW T w b * tileW T w b + p % tileW T w b := by
              rw [hr]
              omega
          _ = tileW T w b * (p / tileW T w b) + p % tileW T w b := by ring
          _ = p := Nat.div_add_mod p (tileW T w b)
    rw [hAval, ← hAq]
    exact getD_lt_argmaxIdx_of_lt _ (A a b) _ hqlt

theorem foldl_update_apply {α : Type} [LinearOrder α] (A : ℕ → ℕ → α) (F T h w : ℕ)
    (P : List (ℕ × ℕ)) (init : ℕ → ℕ → ℕ) (u v : ℕ) :
    (P.foldl (fun fp ab => fun x y =>
        if (x, y) = landmarkPos A F T h w ab.1 ab.2 then 1 else fp x y) init) u v =
      if ∃ ab ∈ P, (u, v) = landmarkPos A F T h w ab.1 ab.2 then 1
      else init u v := by
  induction P generalizing init with
  | nil => simp
  | cons q Q ih =>
    rw [List.foldl_cons, ih]
    by_cases hQ : ∃ ab ∈ Q, (u, v) = landmarkPos A F T h w ab.1 ab.2
    · rw [if_pos hQ]
      obtain ⟨ab, hab, he⟩ := hQ
      rw [if_pos ⟨ab, List.mem_cons_of_mem q hab, he⟩]
    · rw [if_neg hQ]
      by_cases hq : (u, v) = landmarkPos A F T h w q.1 q.2
      · rw [if_pos hq, if_pos ⟨q, List.mem_cons_self q Q, hq⟩]
      · rw [if_neg hq, if_neg ?hns]
        case hns =>
          rintro ⟨ab, hab, he⟩
          rcases List.mem_cons.mp hab with rfl | hmem
          · exact hq he
          · exact hQ ⟨ab, hmem, he⟩

/-- Two tile starts whose half-open tiles of size `s` both contain `u`
coincide. -/
theorem tile_start_unique {s u a a' : ℕ} (hdvd : s ∣ a)
    (h1 : a ≤ u) (h2 : u < a + s) (hdvd' : s ∣ a')
    (h1' : a' ≤ u) (h2' : u < a' + s) : a = a' := by
  obtain ⟨c, rfl⟩ := hdvd
  obtain ⟨c', rfl⟩ := hdvd'
  rcases Nat.lt_trichotomy c c' with hlt | heq | hgt
  · have h3 : s * c + s ≤ s * c' := by
      rw [← Nat.mul_succ]
      exact Nat.mul_le_mul_left s hlt
    omega
  · rw [heq]
  · have h3 : s * c' + s ≤ s * c := by
      rw [← Nat.mul_succ]
      exact Nat.mul_le_mul_left s hgt
    omega

theorem add_tileH (F h a : ℕ) (ha : a ≤ F) : a + tileH F h a = min (a + h) F := by
  unfold tileH
  omega

theorem add_tileW (T w b : ℕ) (hb : b ≤ T) : b + tileW T w b = min (b + w) T := by
  unfold tileW
  omega

/-- C4: for positive tile dimensions and every tile start `(a, b)` of the
grid, the landmark fingerprint is a binary matrix of the spectrogram's
shape whose restriction to the tile
`[a, min (a+h) F) × [b, min (b+w) T)` has exactly one set bit: it sits at
`landmarkPos a b`, the in-tile coordinate of maximum magnitude, where
ties are broken by the first occurrence in row-major scan order (every
strictly earlier in-tile entry is strictly smaller). -/
theorem C4_landmark_tiles {α : Type} [LinearOrder α] (A : ℕ → ℕ → α) (F T h w : ℕ)
    (hh : 0 < h) (hw : 0 < w) (a b : ℕ)
    (ha : a ∈ stepStarts F h) (hb : b ∈ stepStarts T w) :
    (∀ u v, extractLandmarksFingerprinting A F T h w u v = 0 ∨
            extractLandmarksFingerprinting A F T h w u v = 1) ∧
    (∀ u v, F ≤ u ∨ T ≤ v → extractLandmarksFingerprinting A F T h w u v = 0) ∧
    (a ≤ (landmarkPos A F T h w a b).1 ∧
     (landmarkPos A F T h w a b).1 < min (a + h) F ∧
     b ≤ (landmarkPos A F T h w a b).2 ∧
     (landmarkPos A F T h w a b).2 < min (b + w) T) ∧
    (∀ u v, a ≤ u → u < min (a + h) F → b ≤ v → v < min (b + w) T →
      (extractLandmarksFingerprinting A F T h w u v = 1 ↔
        (u, v) = landmarkPos A F T h w a b)) ∧
    (∀ u v, a ≤ u → u < min (a + h) F → b ≤ v → v < min (b + w) T →
      A u v ≤ A (landmarkPos A F T h w a b).1 (landmarkPos A F T h w a b).2) ∧
    (∀ u v, a ≤ u → u < min (a + h) F → b ≤ v → v < min (b + w) T →
      (u < (landmarkPos A F T h w a b).1 ∨
        (u = (landmarkPos A F T h w a b).1 ∧ v < (landmarkPos A F T h w a b).2)) →
      A u v < A (landmarkPos A F T h w a b).1 (landmarkPos A F T h w a b).2) := by
  obtain ⟨hda, haF⟩ := (mem_stepStarts hh a).mp ha
  obtain ⟨hdb, hbT⟩ := (mem_stepStarts hw b).mp hb
  have hminA : a + tileH F h a = min (a + h) F := add_tileH F h a (le_of_lt haF)
  have hminB : b + tileW T w b = min (b + w) T := add_tileW T w b (le_of_lt hbT)
  obtain ⟨hbounds, hmax, hstrict⟩ := landmarkPos_spec A F T h w a b hh hw haF hbT
  have hfp : ∀ u v, extractLandmarksFingerprinting A F T h w u v =
      if ∃ ab ∈ tilePairs F T h w, (u, v) = landmarkPos A F T h w ab.1 ab.2 then 1
      else 0 := by
    intro u v
    unfold extractLandmarksFingerprinting
    exact foldl_update_apply A F T h w (tilePairs F T h w) (fun _ _ => 0) u v
  have hposmem : ∀ ab ∈ tilePairs F T h w,
      ab.1 ≤ (landmarkPos A F T h w ab.1 ab.2).1 ∧
      (landmarkPos A F T h w ab.1 ab.2).1 < ab.1 + tileH F h ab.1 ∧
      ab.2 ≤ (landmarkPos A F T h w ab.1 ab.2).2 ∧
      (landmarkPos A F T h w ab.1 ab.2).2 < ab.2 + tileW T w ab.2 ∧
      ab.1 < F ∧ h ∣ ab.1 ∧ ab.2 < T ∧ w ∣ ab.2 := by
    rintro ⟨x, y⟩ hmem
    unfold tilePairs at hmem
    simp only [List.mem_flatMap, List.mem_map] at hmem
    obtain ⟨x', hx', y', hy', heq⟩ := hmem
    simp only [Prod.mk.injEq] at heq
    obtain ⟨rfl, rfl⟩ := heq
    obtain ⟨hdx, hxF⟩ := (mem_stepStarts hh x').mp hx'
    obtain ⟨hdy, hyT⟩ := (mem_stepStarts hw y').mp hy'
    obtain ⟨hbd, _, _⟩ := landmarkPos_spec A F T h w x' y' hh hw hxF hyT
    exact ⟨hbd.1, hbd.2.1, hbd.2.2.1, hbd.2.2.2, hxF, hdx, hyT, hdy⟩
  have hmemab : (a, b) ∈ tilePairs F T h w := by
    unfold tilePairs
    simp only [List.mem_flatMap, List.mem_map]
    exact ⟨a, ha, b, hb, rfl⟩
  refine ⟨?_, ?_, ?_, ?_, ?_, ?_⟩
  · intro u v
    rw [hfp u v]
    split
    · exact Or.inr rfl
    · exact Or.inl rfl
  · intro u v hout
    rw [hfp u v, if_neg]
    rintro ⟨ab, hmem, he⟩
    obtain ⟨hp1, hp2, hp3, hp4, habF, _, habT, _⟩ := hposmem ab hmem
    have hu : u = (landmarkPos A F T h w ab.1 ab.2).1 := by rw [← he]
    have hv : v = (landmarkPos A F T h w ab.1 ab.2).2 := by rw [← he]
    have h1 : ab.1 + tileH F h ab.1 ≤ F := by unfold tileH; omega
    have h2 : ab.2 + tileW T w ab.2 ≤ T := by unfold tileW; omega
    rcases hout with hc | hc <;> omega
  · rw [← hminA, ← hminB]
    exact hbounds
  · intro u v hu1 hu2 hv1 hv2
    have hu2' : u < a + h := lt_of_lt_of_le hu2 (min_le_left _ _)
    have hv2' : v < b + w := lt_of_lt_of_le hv2 (min_le_left _ _)
    rw [hfp u v]
    constructor
    · intro h1
      by_cases hex : ∃ ab ∈ tilePairs F T h w,
          (u, v) = landmarkPos A F T h w ab.1 ab.2
      · obtain ⟨ab, hmem, he⟩ := hex
        obtain ⟨hp1, hp2, hp3, hp4, habF, habd1, habT, habd2⟩ := hposmem ab hmem
        have hu : u = (landmarkPos A F T h w ab.1 ab.2).1 := by rw [← he]
        have hv : v = (landmarkPos A F T h w ab.1 ab.2).2 := by rw [← he]
        have htH : tileH F h ab.1 ≤ h := by unfold tileH; omega
        have htW : tileW T w ab.2 ≤ w := by unfold tileW; omega
        have heqa : a = ab.1 :=
          tile_start_unique hda hu1 hu2' habd1 (by omega) (by omega)
        have heqb : b = ab.2 :=
          tile_start_unique hdb hv1 hv2' habd2 (by omega) (by omega)
        rw [heqa, heqb]
        exact he
      · rw [if_neg hex] at h1
        exact absurd h1 (by norm_num)
    · intro he
      rw [if_pos ⟨(a, b), hmemab, he⟩]
  · intro u v hu1 hu2 hv1 hv2
    rw [← hminA] at hu2
    rw [← hminB] at hv2
    exact hmax u v hu1 hu2 hv1 hv2
  · intro u v hu1 hu2 hv1 hv2 hlt
    rw [← hminA] at hu2
    rw [← hminB] at hv2
    exact hstrict u v hu1 hu2 hv1 hv2 hlt

/-- C4 (witness): the tile property instantiated at a constant 1×1
spectrogram with 1×1 tiles and the tile start `(0, 0)`. -/
theorem C4_landmark_tiles_witness :
    (∀ u v, extractLandmarksFingerprinting (fun _ _ => (0:ℚ)) 1 1 1 1 u v = 0 ∨
            extractLandmarksFingerprinting (fun _ _ => (0:ℚ)) 1 1 1 1 u v = 1) ∧
    (∀ u v, 1 ≤ u ∨ 1 ≤ v →
      extractLandmarksFingerprinting (fun _ _ => (0:ℚ)) 1 1 1 1 u v = 0) ∧
    (0 ≤ (landmarkPos (fun _ _ => (0:ℚ)) 1 1 1 1 0 0).1 ∧
     (landmarkPos (fun _ _ => (0:ℚ)) 1 1 1 1 0 0).1 < min (0 + 1) 1 ∧
     0 ≤ (landmarkPos (fun _ _ => (0:ℚ)) 1 1 1 1 0 0).2 ∧
     (landmarkPos (fun _ _ => (0:ℚ)) 1 1 1 1 0 0).2 < min (0 + 1) 1) ∧
    (∀ u v, 0 ≤ u → u < min (0 + 1) 1 → 0 ≤ v → v < min (0 + 1) 1 →
      (extractLandmarksFingerprinting (fun _ _ => (0:ℚ)) 1 1 1 1 u v = 1 ↔
        (u, v) = landmarkPos (fun _ _ => (0:ℚ)) 1 1 1 1 0 0)) ∧
    (∀ u v, 0 ≤ u → u < min (0 + 1) 1 → 0 ≤ v → v < min (0 + 1) 1 →
      (0 : ℚ) ≤ 0) ∧
    (∀ u v, 0 ≤ u → u < min (0 + 1) 1 → 0 ≤ v → v < min (0 + 1) 1 →
      (u < (landmarkPos (fun _ _ => (0:ℚ)) 1 1 1 1 0 0).1 ∨
        (u = (landmarkPos (fun _ _ => (0:ℚ)) 1 1 1 1 0 0).1 ∧
         v < (landmarkPos (fun _ _ => (0:ℚ)) 1 1 1 1 0 0).2)) →
      (0 : ℚ) < 0) :=
  C4_landmark_tiles (fun _ _ => (0:ℚ)) 1 1 1 1 (by decide) (by decide) 0 0
    (by decide) (by decide)

end SpeechFP
